import Mathlib

/-!
Verification of the hyper-microservice core (`src/main.rs`).

The service keeps its records in `slab::Slab<UserData>`, so the store model
below embeds the slab crate's data structure: a vector of entries, each
either `occupied` or `vacant`, where the vacant entries form a singly linked
free list threaded through the `next` pointers (`Slab.next` is the head;
a chain value equal to `entries.length` marks the end of the list).
Paths are modelled as lists of characters (`&str` in Rust); each of the
three routing regexes (`INDEX_PATH`, `USERS_PATH`, `USER_PATH`) is embedded
by a function computing its exact denotation.  The dispatcher
`MicroService.call` mirrors the `Service::call` implementation line for
line; responses are a status code plus a body string.
-/

namespace Micro

/-- One slot of `slab::Slab<α>`: either occupied by a value, or vacant and
holding the index of the next vacant slot (the slab crate's
`enum Entry<T> { Vacant(usize), Occupied(T) }`). -/
inductive Entry (α : Type) : Type where
  | vacant : Nat → Entry α
  | occupied : α → Entry α
deriving DecidableEq

/-- `slab::Slab<α>`: the entry vector, the head of the vacant-slot free list
(`next`), and the number of occupied slots (`len`).  `next = entries.length`
means the free list is empty. -/
structure Slab (α : Type) : Type where
  entries : List (Entry α)
  next : Nat
  len : Nat
deriving DecidableEq

/-- `Slab::new()`. -/
def Slab.new {α : Type} : Slab α := ⟨[], 0, 0⟩

/-- `Slab::insert(val) -> usize` (slab crate): the returned key is `self.next`;
if `next` equals the entry count the vector grows by one occupied slot,
otherwise the vacant slot at `next` is filled and the free-list head advances
to the pointer stored in that slot.  The final catch-all corresponds to the
`unreachable!()` in the crate (never hit on well-formed slabs). -/
def Slab.insert {α : Type} (s : Slab α) (v : α) : Nat × Slab α :=
  let key := s.next
  if key = s.entries.length then
    (key, ⟨s.entries ++ [Entry.occupied v], key + 1, s.len + 1⟩)
  else
    match s.entries[key]? with
    | some (Entry.vacant n) =>
        (key, ⟨s.entries.set key (Entry.occupied v), n, s.len + 1⟩)
    | _ => (key, s)

/-- `Slab::get(key) -> Option<&T>`: `some` exactly on occupied slots. -/
def Slab.get {α : Type} (s : Slab α) (k : Nat) : Option α :=
  match s.entries[k]? with
  | some (Entry.occupied v) => some v
  | _ => none

/-- `Slab::contains(key)`. -/
def Slab.contains {α : Type} (s : Slab α) (k : Nat) : Bool :=
  (s.get k).isSome

/-- `get_mut(key)` followed by `*data = v` (the PUT handler): overwrite the
record at `k` when occupied, signal `none` otherwise.  The slot index, the
free list and the length are untouched. -/
def Slab.update {α : Type} (s : Slab α) (k : Nat) (v : α) : Option (Slab α) :=
  match s.entries[k]? with
  | some (Entry.occupied _) => some ⟨s.entries.set k (Entry.occupied v), s.next, s.len⟩
  | _ => none

/-- `Slab::remove(key)` on an occupied slot: the slot becomes vacant and is
pushed on the front of the free list (it stores the old head, and `next`
becomes `key`).  On a non-occupied slot the crate panics; the service only
calls `remove` under a `contains` guard, and we model the impossible branch
as the identity. -/
def Slab.remove {α : Type} (s : Slab α) (k : Nat) : Slab α :=
  match s.entries[k]? with
  | some (Entry.occupied _) => ⟨s.entries.set k (Entry.vacant s.next), k, s.len - 1⟩
  | _ => s

/-- Helper for `Slab.list`: indices (offset by `i`) of the occupied entries,
in physical slot order. -/
def listAux {α : Type} : Nat → List (Entry α) → List Nat
  | _, [] => []
  | i, Entry.occupied _ :: es => i :: listAux (i + 1) es
  | i, Entry.vacant _ :: es => listAux (i + 1) es

/-- `slab.iter().map(|(id, _)| id)`: the occupied slot indices, low to high. -/
def Slab.list {α : Type} (s : Slab α) : List Nat :=
  listAux 0 s.entries

/-- The slot `k` currently holds a record. -/
def occupiedAt {α : Type} (s : Slab α) (k : Nat) : Prop :=
  ∃ v, s.entries[k]? = some (Entry.occupied v)

/-- Index `i` of the entry vector is a vacant slot. -/
def isVacantIdx {α : Type} (entries : List (Entry α)) (i : Nat) : Prop :=
  ∃ n, entries[i]? = some (Entry.vacant n)

/-- `struct UserData;` — the record type carries no fields. -/
structure UserData : Type where
deriving DecidableEq

/-- `impl fmt::Display for UserData` writes the literal two-character string
consisting of an opening and a closing curly brace. -/
def UserData.render : UserData → String := fun _ => "\x7b\x7d"

/-- The HTTP methods distinguished by the dispatcher; every other method
(PATCH, HEAD, ...) is covered by `other`. -/
inductive Method : Type where
  | GET : Method
  | POST : Method
  | PUT : Method
  | DELETE : Method
  | other : String → Method
deriving DecidableEq

/-- A response: status code plus body text (`response_with_code` bodies are
empty). -/
structure Resp : Type where
  status : Nat
  body : String
deriving DecidableEq

/-- The `INDEX` constant of `main.rs` (a raw string starting and ending with a
newline). -/
def INDEX : String :=
  "\n<!doctype html>\n<html>\n    <head>\n        <title>Rust Microservice</title>\n    </head>\n    <body>\n        <h3>Rust Microservice</h3>\n    </body>\n</html>\n"

/-- Denotation of `INDEX_PATH = ^/(index\.html?)?$`: the whole path is `/`
optionally followed by `index.htm` and an optional final `l`.  Its language
is exactly the three words below. -/
def INDEX_PATH_match (p : List Char) : Bool :=
  p = ['/'] ||
  p = ['/', 'i', 'n', 'd', 'e', 'x', '.', 'h', 't', 'm'] ||
  p = ['/', 'i', 'n', 'd', 'e', 'x', '.', 'h', 't', 'm', 'l']

/-- Denotation of `USERS_PATH = ^/users/?$`. -/
def USERS_PATH_match (p : List Char) : Bool :=
  p = ['/', 'u', 's', 'e', 'r', 's'] ||
  p = ['/', 'u', 's', 'e', 'r', 's', '/']

/-- The six characters of the mandatory `/user/` part of `USER_PATH`. -/
def userPre : List Char := ['/', 'u', 's', 'e', 'r', '/']

/-- Strip a literal pattern from the front of a character list; `some rest`
exactly when the pattern is a prefix. -/
def stripPre : List Char → List Char → Option (List Char)
  | [], cs => some cs
  | _ :: _, [] => none
  | p :: ps, c :: cs => if c = p then stripPre ps cs else none

/-- ASCII decimal digit, the characters matched by `\d` on these paths. -/
def isDigitChar (c : Char) : Bool :=
  '0' ≤ c && c ≤ '9'

/-- Denotation of `USER_PATH = ^/user/((?P<user_id>\d+?)/?)?$` together with
its `user_id` capture: `none` when the path does not match; `some none` for
the bare `/user/`; `some (some ds)` when the path is `/user/` followed by a
nonempty digit run `ds` and an optional final slash.  Anything else after
`/user/` (for example letters, or a lone slash) fails the whole regex. -/
def USER_PATH_captures (p : List Char) : Option (Option (List Char)) :=
  match stripPre userPre p with
  | none => none
  | some [] => some none
  | some rest =>
      let core := if rest.getLast? = some '/' then rest.dropLast else rest
      if core ≠ [] ∧ core.all isDigitChar then some (some core) else none

/-- `str::parse::<u64>` on the captured digit run: the value of the digits if
it fits in 64 bits, `none` on overflow (the capture is always a nonempty
ASCII-digit string, and the `as usize` cast is the identity on a 64-bit
platform). -/
def parseU64 (cs : List Char) : Option Nat :=
  if cs ≠ [] ∧ cs.all isDigitChar then
    let n := cs.foldl (fun acc c => acc * 10 + (c.toNat - 48)) 0
    if n < 18446744073709551616 then some n else none
  else none

/-- `Service::call` of `MicroService` (lines 77–149 of `main.rs`): classify
the path against the three regexes in order, extract the optional id, and
dispatch on `(method, user_id)` exactly as the Rust `match` does.  Returns
the response together with the store left behind by the request. -/
def MicroService.call (users : Slab UserData) (method : Method) (path : List Char) :
    Resp × Slab UserData :=
  if INDEX_PATH_match path then
    if method = Method.GET then (⟨200, INDEX⟩, users)
    else (⟨405, ""⟩, users)
  else if USERS_PATH_match path then
    if method = Method.GET then
      (⟨200, String.intercalate "," (users.list.map (fun id => toString id))⟩, users)
    else (⟨405, ""⟩, users)
  else
    match USER_PATH_captures path with
    | some cap =>
        let user_id : Option Nat := cap.bind parseU64
        match method, user_id with
        | Method.POST, none =>
            let r := users.insert UserData.mk
            (⟨200, toString r.1⟩, r.2)
        | Method.POST, some _ => (⟨400, ""⟩, users)
        | Method.GET, some id =>
            match users.get id with
            | some data => (⟨200, data.render⟩, users)
            | none => (⟨404, ""⟩, users)
        | Method.PUT, some id =>
            match users.update id UserData.mk with
            | some updated => (⟨200, ""⟩, updated)
            | none => (⟨404, ""⟩, users)
        | Method.DELETE, some id =>
            if users.contains id then (⟨200, ""⟩, users.remove id)
            else (⟨404, ""⟩, users)
        | _, _ => (⟨405, ""⟩, users)
    | none => (⟨404, ""⟩, users)

/-- Store operations reachable through the service: POST `/user/` (insert),
PUT `/user/{id}` (update, no-op when the id is unknown), DELETE `/user/{id}`
(remove, guarded by `contains`). -/
inductive Op : Type where
  | insert : Op
  | update : Nat → Op
  | remove : Nat → Op
deriving DecidableEq

/-- The store transition performed by one operation, exactly as dispatched by
`MicroService.call`. -/
def applyOp (s : Slab UserData) : Op → Slab UserData
  | Op.insert => (s.insert UserData.mk).2
  | Op.update id => ((s.update id UserData.mk).getD s)
  | Op.remove id => if s.contains id then s.remove id else s

/-- Run a sequence of operations from the empty store. -/
def applyOps (ops : List Op) : Slab UserData :=
  ops.foldl applyOp Slab.new

/-- Run a sequence of operations from the empty store while recording the ids
returned by `insert` and not subsequently removed (a successful `remove`
deletes the id from the record; a failed one records nothing). -/
def step (p : Slab UserData × List Nat) (op : Op) : Slab UserData × List Nat :=
  match op with
  | Op.insert => (applyOp p.1 Op.insert, (p.1.insert UserData.mk).1 :: p.2)
  | Op.update id => (applyOp p.1 (Op.update id), p.2)
  | Op.remove id =>
      if p.1.contains id then (applyOp p.1 (Op.remove id), p.2.filter (fun j => j ≠ id))
      else (p.1, p.2)

/-- Operation history together with the live-id record. -/
def runOps (ops : List Op) : Slab UserData × List Nat :=
  ops.foldl step (Slab.new, [])

/-! ### Basic facts about the path classifiers -/

theorem stripPre_append (ps : List Char) :
    ∀ (cs r : List Char), stripPre ps cs = some r → cs = ps ++ r := by
  induction ps with
  | nil => intro cs r h; simpa [stripPre] using h
  | cons p ps ih =>
      intro cs r h
      cases cs with
      | nil => simp [stripPre] at h
      | cons c cs =>
          by_cases hc : c = p
          · subst hc
            simp only [stripPre, if_pos rfl] at h
            simpa using ih cs r h
          · simp [stripPre, hc] at h

theorem index_match_paths (p : List Char) (h : INDEX_PATH_match p = true) :
    p = ['/'] ∨ p = ['/', 'i', 'n', 'd', 'e', 'x', '.', 'h', 't', 'm'] ∨
      p = ['/', 'i', 'n', 'd', 'e', 'x', '.', 'h', 't', 'm', 'l'] := by
  simpa [INDEX_PATH_match, or_assoc] using h

theorem users_match_paths (p : List Char) (h : USERS_PATH_match p = true) :
    p = ['/', 'u', 's', 'e', 'r', 's'] ∨ p = ['/', 'u', 's', 'e', 'r', 's', '/'] := by
  simpa [USERS_PATH_match] using h

/-- A path with a `USER_PATH` match is rejected by the two classifiers tried
before it, so `MicroService.call` reaches the `USER_PATH` branch on it. -/
theorem user_captures_not_other (p : List Char) (x : Option (List Char))
    (h : USER_PATH_captures p = some x) :
    INDEX_PATH_match p = false ∧ USERS_PATH_match p = false := by
  have hs : (USER_PATH_captures p).isSome = true := by rw [h]; rfl
  constructor
  · cases hI : INDEX_PATH_match p
    · rfl
    · exfalso
      rcases index_match_paths p hI with rfl | rfl | rfl <;> exact absurd hs (by decide)
  · cases hU : USERS_PATH_match p
    · rfl
    · exfalso
      rcases users_match_paths p hU with rfl | rfl <;> exact absurd hs (by decide)

/-! ### Basic facts about the store operations -/

theorem get_isSome_iff {α : Type} (s : Slab α) (k : Nat) :
    (s.get k).isSome = true ↔ occupiedAt s k := by
  unfold Slab.get occupiedAt
  cases h : s.entries[k]? with
  | none => simp [h]
  | some e => cases e with
    | vacant n => simp [h]
    | occupied v => simp [h]

theorem contains_iff {α : Type} (s : Slab α) (k : Nat) :
    s.contains k = true ↔ occupiedAt s k := by
  unfold Slab.contains
  exact get_isSome_iff s k

theorem update_isSome_iff {α : Type} (s : Slab α) (k : Nat) (v : α) :
    (s.update k v).isSome = true ↔ occupiedAt s k := by
  unfold Slab.update occupiedAt
  cases h : s.entries[k]? with
  | none => simp [h]
  | some e => cases e with
    | vacant n => simp [h]
    | occupied w => simp [h]

theorem update_eq_none {α : Type} (s : Slab α) (k : Nat) (v : α)
    (h : s.contains k = false) : s.update k v = none := by
  cases hu : s.update k v with
  | none => rfl
  | some s' =>
      have : (s.update k v).isSome = true := by rw [hu]; rfl
      rw [(update_isSome_iff s k v), ← contains_iff] at this
      rw [h] at this
      cases this

theorem get_eq_none {α : Type} (s : Slab α) (k : Nat)
    (h : s.contains k = false) : s.get k = none := by
  cases hg : s.get k with
  | none => rfl
  | some v =>
      have : (s.get k).isSome = true := by rw [hg]; rfl
      unfold Slab.contains at h
      rw [h] at this
      cases this

/-! ### The occupied-index list produced by `Slab.list` -/

theorem mem_listAux {α : Type} (es : List (Entry α)) :
    ∀ (i x : Nat), x ∈ listAux i es ↔
      ∃ j, (∃ v, es[j]? = some (Entry.occupied v)) ∧ x = i + j := by
  induction es with
  | nil => intro i x; simp [listAux]
  | cons e es ih =>
      intro i x
      cases e with
      | occupied v =>
          simp only [listAux, List.mem_cons, ih]
          constructor
          · rintro (rfl | ⟨j, hj, rfl⟩)
            · exact ⟨0, ⟨v, by simp⟩, by omega⟩
            · exact ⟨j + 1, by simpa using hj, by omega⟩
          · rintro ⟨j, hj, rfl⟩
            cases j with
            | zero => left; omega
            | succ j => right; exact ⟨j, by simpa using hj, by omega⟩
      | vacant n =>
          simp only [listAux, ih]
          constructor
          · rintro ⟨j, hj, rfl⟩
            exact ⟨j + 1, by simpa using hj, by omega⟩
          · rintro ⟨j, hj, rfl⟩
            cases j with
            | zero => simp at hj
            | succ j => exact ⟨j, by simpa using hj, by omega⟩

/-- An id appears in `list()` exactly when its slot is occupied. -/
theorem mem_list_iff {α : Type} (s : Slab α) (x : Nat) :
    x ∈ s.list ↔ occupiedAt s x := by
  unfold Slab.list occupiedAt
  rw [mem_listAux]
  constructor
  · rintro ⟨j, hj, rfl⟩; simpa using hj
  · intro hx; exact ⟨x, hx, by omega⟩

theorem listAux_ge {α : Type} (es : List (Entry α)) :
    ∀ (i : Nat), ∀ x ∈ listAux i es, i ≤ x := by
  induction es with
  | nil => intro i x hx; simp [listAux] at hx
  | cons e es ih =>
      intro i x hx
      cases e with
      | occupied v =>
          simp only [listAux, List.mem_cons] at hx
          rcases hx with rfl | hx
          · exact Nat.le_refl x
          · exact Nat.le_of_succ_le (ih (i + 1) x hx)
      | vacant n =>
          simp only [listAux] at hx
          exact Nat.le_of_succ_le (ih (i + 1) x hx)

/-- The ids produced by `list()` are in strictly ascending slot order. -/
theorem listAux_pairwise {α : Type} (es : List (Entry α)) :
    ∀ (i : Nat), (listAux i es).Pairwise (fun a b => a < b) := by
  induction es with
  | nil => intro i; simp [listAux]
  | cons e es ih =>
      intro i
      cases e with
      | occupied v =>
          simp only [listAux, List.pairwise_cons]
          exact ⟨fun x hx => Nat.lt_of_succ_le (listAux_ge es (i + 1) x hx), ih (i + 1)⟩
      | vacant n => simpa [listAux] using ih (i + 1)

theorem list_pairwise {α : Type} (s : Slab α) :
    s.list.Pairwise (fun a b => a < b) :=
  listAux_pairwise s.entries 0

theorem list_nodup {α : Type} (s : Slab α) : s.list.Nodup :=
  (list_pairwise s).imp (fun h => Nat.ne_of_lt h)

/-! ### Well-formedness of the slab free list

`FreeChain entries p c` says that starting from pointer `p` and repeatedly
following the pointers stored in vacant entries one traverses exactly the
indices in `c` and ends at the sentinel value `entries.length`.  A slab is
well formed (`WF`) when its `next` pointer heads such a chain that visits
every vacant slot exactly once.  Every slab reachable from `Slab::new()`
through the service's operations is well formed (proved below). -/

inductive FreeChain {α : Type} : List (Entry α) → Nat → List Nat → Prop where
  | nil : ∀ (entries : List (Entry α)), FreeChain entries entries.length []
  | cons : ∀ (entries : List (Entry α)) (p n : Nat) (rest : List Nat),
      entries[p]? = some (Entry.vacant n) → FreeChain entries n rest →
      FreeChain entries p (p :: rest)

def WF {α : Type} (s : Slab α) : Prop :=
  ∃ chain : List Nat, FreeChain s.entries s.next chain ∧ chain.Nodup ∧
    ∀ i, isVacantIdx s.entries i ↔ i ∈ chain

theorem freeChain_cases {α : Type} {es : List (Entry α)} {p : Nat} {c : List Nat}
    (h : FreeChain es p c) :
    (p = es.length ∧ c = []) ∨
      (∃ n rest, es[p]? = some (Entry.vacant n) ∧ FreeChain es n rest ∧ c = p :: rest) := by
  cases h with
  | nil => exact Or.inl ⟨rfl, rfl⟩
  | cons p n rest hget hrest => exact Or.inr ⟨n, rest, hget, hrest, rfl⟩

theorem freeChain_head_lt {α : Type} {es : List (Entry α)} {p n : Nat}
    (hget : es[p]? = some (Entry.vacant n)) : p < es.length := by
  rcases List.getElem?_eq_some_iff.mp hget with ⟨hlt, _⟩
  exact hlt

theorem freeChain_mem {α : Type} {es : List (Entry α)} {p : Nat} {c : List Nat}
    (h : FreeChain es p c) : ∀ j ∈ c, isVacantIdx es j := by
  induction h with
  | nil => intro j hj; cases hj
  | cons p n rest hget hrest ih =>
      intro j hj
      rcases List.mem_cons.mp hj with rfl | hj
      · exact ⟨n, hget⟩
      · exact ih j hj

/-- Overwriting an entry that is not on a chain leaves the chain intact. -/
theorem freeChain_set {α : Type} {es : List (Entry α)} {p : Nat} {c : List Nat}
    (h : FreeChain es p c) (k : Nat) (x : Entry α) (hk : ∀ j ∈ c, j ≠ k) :
    FreeChain (es.set k x) p c := by
  induction h with
  | nil =>
      have hnew := FreeChain.nil (α := α) (es.set k x)
      rwa [List.length_set] at hnew
  | cons p n rest hget hrest ih =>
      have hkp : k ≠ p := fun he => (hk p (List.mem_cons_self p rest)) he.symm
      refine FreeChain.cons _ p n rest ?_ (ih (fun j hj => hk j (List.mem_cons_of_mem p hj)))
      rw [List.getElem?_set_ne hkp]
      exact hget

theorem contains_false_iff {α : Type} (s : Slab α) (k : Nat) :
    s.contains k = false ↔ ¬ occupiedAt s k := by
  constructor
  · intro h hocc
    rw [(contains_iff s k).mpr hocc] at h
    cases h
  · intro h
    cases hc : s.contains k
    · rfl
    · exact absurd ((contains_iff s k).mp hc) h

theorem wf_new {α : Type} : WF (Slab.new : Slab α) := by
  refine ⟨[], ?_, List.nodup_nil, ?_⟩
  · exact FreeChain.nil []
  · intro i
    constructor
    · rintro ⟨n, hn⟩; simp [Slab.new] at hn
    · intro hi; cases hi

/-- `insert` on a well-formed slab: the result is well formed, the returned
key (`s.next`) was not occupied before, and afterwards exactly the old
occupied slots plus the new key are occupied. -/
theorem wf_insert {α : Type} (s : Slab α) (v : α) (h : WF s) :
    WF (s.insert v).2 ∧ ¬ occupiedAt s (s.insert v).1 ∧ (s.insert v).1 = s.next ∧
      ∀ i, (occupiedAt (s.insert v).2 i ↔ (occupiedAt s i ∨ i = s.next)) := by
  obtain ⟨chain, hfc, hnd, hiff⟩ := h
  by_cases hk : s.next = s.entries.length
  · -- the free list is empty: grow by one slot
    have hchain : chain = [] := by
      rcases freeChain_cases hfc with ⟨_, rfl⟩ | ⟨n, rest, hget, _, rfl⟩
      · rfl
      · exact absurd hk (Nat.ne_of_lt (freeChain_head_lt hget))
    have hnovac : ∀ i, ¬ isVacantIdx s.entries i := by
      intro i hv
      have := (hiff i).mp hv
      rw [hchain] at this
      cases this
    have hins : s.insert v =
        (s.next, ⟨s.entries ++ [Entry.occupied v], s.next + 1, s.len + 1⟩) := by
      simp [Slab.insert, hk]
    rw [hins]
    refine ⟨⟨[], ?_, List.nodup_nil, ?_⟩, ?_, rfl, ?_⟩
    · have hnew := FreeChain.nil (α := α) (s.entries ++ [Entry.occupied v])
      have hlen : (s.entries ++ [Entry.occupied v]).length = s.next + 1 := by
        simp [hk]
      rwa [hlen] at hnew
    · intro i
      simp only [List.mem_nil_iff, iff_false]
      rintro ⟨n, hn⟩
      rcases Nat.lt_or_ge i s.entries.length with hlt | hge
      · rw [List.getElem?_append_left hlt] at hn
        exact hnovac i ⟨n, hn⟩
      · rw [List.getElem?_append_right hge] at hn
        rcases Nat.lt_or_ge (i - s.entries.length) 1 with h1 | h1
        · have h0 : i - s.entries.length = 0 := by omega
          rw [h0] at hn
          simp at hn
        · rw [List.getElem?_len_le (by simpa using h1)] at hn
          cases hn
    · rintro ⟨w, hw⟩
      rw [List.getElem?_len_le (Nat.le_of_eq hk.symm)] at hw
      cases hw
    · intro i
      rcases Nat.lt_trichotomy i s.entries.length with hlt | heq | hgt
      · have hsame : (s.entries ++ [Entry.occupied v])[i]? = s.entries[i]? :=
          List.getElem?_append_left hlt
        have hne : i ≠ s.next := fun he => absurd hk (by omega)
        unfold occupiedAt
        rw [hsame]
        simp [hne]
      · constructor
        · intro _; exact Or.inr (by omega)
        · intro _
          refine ⟨v, ?_⟩
          show (s.entries ++ [Entry.occupied v])[i]? = some (Entry.occupied v)
          rw [heq]
          exact List.getElem?_concat_length s.entries (Entry.occupied v)
      · have hnone : (s.entries ++ [Entry.occupied v])[i]? = none := by
          apply List.getElem?_len_le
          simp; omega
        have hnone' : s.entries[i]? = none := List.getElem?_len_le (by omega)
        have hne : i ≠ s.next := fun he => by omega
        unfold occupiedAt
        rw [hnone, hnone']
        simp [hne]
  · -- the free list is nonempty: pop its head
    rcases freeChain_cases hfc with ⟨he, _⟩ | ⟨n, rest, hget, hrestFC, rfl⟩
    · exact absurd he hk
    have hlt : s.next < s.entries.length := freeChain_head_lt hget
    have hnotmem : s.next ∉ rest := (List.nodup_cons.mp hnd).1
    have hndrest : rest.Nodup := (List.nodup_cons.mp hnd).2
    have hins : s.insert v =
        (s.next, ⟨s.entries.set s.next (Entry.occupied v), n, s.len + 1⟩) := by
      simp [Slab.insert, hk, hget]
    rw [hins]
    refine ⟨⟨rest, ?_, hndrest, ?_⟩, ?_, rfl, ?_⟩
    · exact freeChain_set hrestFC s.next (Entry.occupied v)
        (fun j hj he => hnotmem (he ▸ hj))
    · intro i
      by_cases hi : i = s.next
      · subst hi
        constructor
        · rintro ⟨m, hm⟩
          rw [List.getElem?_set_self hlt] at hm
          cases hm
        · intro hmem; exact absurd hmem hnotmem
      · unfold isVacantIdx
        rw [List.getElem?_set_ne (fun he => hi he.symm)]
        constructor
        · intro hv
          rcases List.mem_cons.mp ((hiff i).mp hv) with he | hmem
          · exact absurd he hi
          · exact hmem
        · intro hmem
          exact (hiff i).mpr (List.mem_cons_of_mem _ hmem)
    · rintro ⟨w, hw⟩
      rw [hget] at hw
      cases hw
    · intro i
      by_cases hi : i = s.next
      · subst hi
        constructor
        · intro _; exact Or.inr rfl
        · intro _
          exact ⟨v, List.getElem?_set_self hlt⟩
      · unfold occupiedAt
        rw [List.getElem?_set_ne (fun he => hi he.symm)]
        simp [hi]

/-- `update` on an occupied slot: well-formedness and the occupancy set are
both preserved (only the stored record changes). -/
theorem wf_update {α : Type} (s : Slab α) (k : Nat) (v : α) (s' : Slab α)
    (h : WF s) (hu : s.update k v = some s') :
    WF s' ∧ ∀ i, (occupiedAt s' i ↔ occupiedAt s i) := by
  obtain ⟨chain, hfc, hnd, hiff⟩ := h
  cases hk : s.entries[k]? with
  | none => unfold Slab.update at hu; rw [hk] at hu; cases hu
  | some e =>
      cases e with
      | vacant n => unfold Slab.update at hu; rw [hk] at hu; cases hu
      | occupied w =>
          unfold Slab.update at hu
          rw [hk] at hu
          have hs' : s' = ⟨s.entries.set k (Entry.occupied v), s.next, s.len⟩ :=
            (Option.some_inj.mp hu).symm
          subst hs'
          have hlt : k < s.entries.length := by
            rcases List.getElem?_eq_some_iff.mp hk with ⟨hlt, _⟩
            exact hlt
          have hknot : ∀ j ∈ chain, j ≠ k := by
            intro j hj he
            subst he
            rcases (hiff j).mpr hj with ⟨m, hm⟩
            rw [hk] at hm
            cases hm
          refine ⟨⟨chain, ?_, hnd, ?_⟩, ?_⟩
          · exact freeChain_set hfc k _ hknot
          · intro i
            by_cases hi : i = k
            · subst hi
              constructor
              · rintro ⟨m, hm⟩
                rw [List.getElem?_set_self hlt] at hm
                cases hm
              · intro hmem; exact absurd rfl (hknot i hmem)
            · unfold isVacantIdx
              rw [List.getElem?_set_ne (fun he => hi he.symm)]
              exact hiff i
          · intro i
            by_cases hi : i = k
            · subst hi
              constructor
              · intro _; exact ⟨w, hk⟩
              · intro _; exact ⟨v, List.getElem?_set_self hlt⟩
            · unfold occupiedAt
              rw [List.getElem?_set_ne (fun he => hi he.symm)]

/-- `remove` on an occupied slot: the result is well formed and exactly that
slot leaves the occupancy set (it goes to the head of the free list). -/
theorem wf_remove {α : Type} (s : Slab α) (k : Nat) (h : WF s) (hocc : occupiedAt s k) :
    WF (s.remove k) ∧ ∀ i, (occupiedAt (s.remove k) i ↔ (occupiedAt s i ∧ i ≠ k)) := by
  obtain ⟨chain, hfc, hnd, hiff⟩ := h
  obtain ⟨w, hk⟩ := hocc
  have hlt : k < s.entries.length := by
    rcases List.getElem?_eq_some_iff.mp hk with ⟨hlt, _⟩
    exact hlt
  have hrem : s.remove k = ⟨s.entries.set k (Entry.vacant s.next), k, s.len - 1⟩ := by
    unfold Slab.remove
    rw [hk]
  have hknot : ∀ j ∈ chain, j ≠ k := by
    intro j hj he
    subst he
    rcases (hiff j).mpr hj with ⟨m, hm⟩
    rw [hk] at hm
    cases hm
  rw [hrem]
  refine ⟨⟨k :: chain, ?_, ?_, ?_⟩, ?_⟩
  · refine FreeChain.cons _ k s.next chain ?_ (freeChain_set hfc k _ hknot)
    exact List.getElem?_set_self hlt
  · exact List.nodup_cons.mpr ⟨fun hmem => (hknot k hmem) rfl, hnd⟩
  · intro i
    by_cases hi : i = k
    · subst hi
      constructor
      · intro _; exact List.mem_cons_self _ _
      · intro _; exact ⟨s.next, List.getElem?_set_self hlt⟩
    · unfold isVacantIdx
      rw [List.getElem?_set_ne (fun he => hi he.symm), List.mem_cons]
      constructor
      · intro hv; exact Or.inr ((hiff i).mp hv)
      · rintro (he | hmem)
        · exact absurd he hi
        · exact (hiff i).mpr hmem
  · intro i
    by_cases hi : i = k
    · subst hi
      constructor
      · rintro ⟨m, hm⟩
        rw [List.getElem?_set_self hlt] at hm
        cases hm
      · rintro ⟨_, hne⟩; exact absurd rfl hne
    · unfold occupiedAt
      rw [List.getElem?_set_ne (fun he => hi he.symm)]
      simp [hi]

/-- Every operation dispatched by the service preserves well-formedness. -/
theorem wf_applyOp (s : Slab UserData) (op : Op) (h : WF s) : WF (applyOp s op) := by
  cases op with
  | insert => exact (wf_insert s UserData.mk h).1
  | update id =>
      cases hu : s.update id UserData.mk with
      | none => simpa [applyOp, hu] using h
      | some s' =>
          have hw := (wf_update s id UserData.mk s' h hu).1
          simpa [applyOp, hu] using hw
  | remove id =>
      by_cases hc : s.contains id = true
      · have hw := (wf_remove s id h ((contains_iff s id).mp hc)).1
        simpa [applyOp, hc] using hw
      · simpa [applyOp, hc] using h

theorem wf_foldl (ops : List Op) : ∀ s, WF s → WF (ops.foldl applyOp s) := by
  induction ops with
  | nil => intro s h; exact h
  | cons op ops ih => intro s h; exact ih (applyOp s op) (wf_applyOp s op h)

/-- Every store reachable from the empty store is well formed. -/
theorem wf_applyOps (ops : List Op) : WF (applyOps ops) :=
  wf_foldl ops Slab.new wf_new

/-! ### The live-id invariant behind C1 -/

/-- The occupied slots of the store are exactly the recorded live ids. -/
def InvP (p : Slab UserData × List Nat) : Prop :=
  WF p.1 ∧ ∀ i, (p.1.contains i = true ↔ i ∈ p.2)

theorem step_inv (p : Slab UserData × List Nat) (op : Op) (h : InvP p) :
    InvP (step p op) := by
  obtain ⟨hwf, hlive⟩ := h
  cases op with
  | insert =>
      obtain ⟨hwf', _, hkey, hocc⟩ := wf_insert p.1 UserData.mk hwf
      refine ⟨hwf', fun i => ?_⟩
      show (p.1.insert UserData.mk).2.contains i = true ↔
        i ∈ (p.1.insert UserData.mk).1 :: p.2
      rw [contains_iff, hocc i, List.mem_cons, hkey]
      constructor
      · rintro (ho | he)
        · exact Or.inr ((hlive i).mp ((contains_iff _ i).mpr ho))
        · exact Or.inl he
      · rintro (he | hmem)
        · exact Or.inr he
        · exact Or.inl ((contains_iff _ i).mp ((hlive i).mpr hmem))
  | update id =>
      cases hu : p.1.update id UserData.mk with
      | none =>
          have hs : step p (Op.update id) = (p.1, p.2) := by simp [step, applyOp, hu]
          rw [hs]
          exact ⟨hwf, hlive⟩
      | some s' =>
          obtain ⟨hwf', hocc⟩ := wf_update p.1 id UserData.mk s' hwf hu
          have hs : step p (Op.update id) = (s', p.2) := by simp [step, applyOp, hu]
          rw [hs]
          refine ⟨hwf', fun i => ?_⟩
          rw [contains_iff, hocc i, ← contains_iff]
          exact hlive i
  | remove id =>
      by_cases hc : p.1.contains id = true
      · obtain ⟨hwf', hocc⟩ := wf_remove p.1 id hwf ((contains_iff _ id).mp hc)
        have hs : step p (Op.remove id) =
            (p.1.remove id, p.2.filter (fun j => j ≠ id)) := by
          simp [step, applyOp, hc]
        rw [hs]
        refine ⟨hwf', fun i => ?_⟩
        rw [contains_iff, hocc i, ← contains_iff, List.mem_filter]
        constructor
        · rintro ⟨ho, hne⟩
          exact ⟨(hlive i).mp ho, by simp [hne]⟩
        · rintro ⟨hmem, hne⟩
          refine ⟨(hlive i).mpr hmem, ?_⟩
          simpa using hne
      · have hs : step p (Op.remove id) = (p.1, p.2) := by simp [step, hc]
        rw [hs]
        exact ⟨hwf, hlive⟩

theorem foldl_step_inv (ops : List Op) :
    ∀ q, InvP q → InvP (ops.foldl step q) := by
  induction ops with
  | nil => intro q h; exact h
  | cons op ops ih => intro q h; exact ih (step q op) (step_inv q op h)

theorem invP_start : InvP (Slab.new, ([] : List Nat)) := by
  refine ⟨wf_new, fun i => ?_⟩
  constructor
  · intro hci
    rcases (contains_iff _ i).mp hci with ⟨v, hv⟩
    simp [Slab.new] at hv
  · intro hmem
    cases hmem

theorem runOps_inv (ops : List Op) : InvP (runOps ops) :=
  foldl_step_inv ops (Slab.new, []) invP_start

/-- `insert` always hands out the current free-list head `next` as the key,
in both the grow and the reuse branch. -/
theorem insert_fst {α : Type} (s : Slab α) (v : α) : (s.insert v).1 = s.next := by
  by_cases h : s.next = s.entries.length
  · simp [Slab.insert, h]
  · cases hk : s.entries[s.next]? with
    | none => simp [Slab.insert, h, hk]
    | some e => cases e with
      | vacant n => simp [Slab.insert, h, hk]
      | occupied w => simp [Slab.insert, h, hk]

/-! ### The claims -/

/-- C1: starting from the empty store, after any sequence of
insert/update/remove operations the ids returned by `list()` are exactly the
ids handed out by `insert` and not subsequently removed; no id appears twice
in the list; and an id passes the occupancy test used by `get`, `update` and
the `contains` guard of `remove` iff its slot is currently occupied. -/
theorem C1_store_list_invariant (ops : List Op) :
    (∀ id, id ∈ (runOps ops).1.list ↔ id ∈ (runOps ops).2) ∧
    (runOps ops).1.list.Nodup ∧
    (∀ id v, (((runOps ops).1.get id).isSome = true ↔ occupiedAt (runOps ops).1 id) ∧
      (((runOps ops).1.update id v).isSome = true ↔ occupiedAt (runOps ops).1 id) ∧
      ((runOps ops).1.contains id = true ↔ occupiedAt (runOps ops).1 id)) := by
  obtain ⟨hwf, hlive⟩ := runOps_inv ops
  refine ⟨fun id => ?_, list_nodup _,
    fun id v => ⟨get_isSome_iff _ id, update_isSome_iff _ id v, contains_iff _ id⟩⟩
  rw [mem_list_iff, ← contains_iff]
  exact hlive id

/-- C2 counterexample: insert three records, then free slot 0 and then slot 1.
Both slots are free, the lowest free slot is 0, yet the next insert returns 1
(the most recently freed slot): the slab free list is LIFO, not
lowest-first. -/
theorem C2_counterexample :
    (applyOps [Op.insert, Op.insert, Op.insert, Op.remove 0, Op.remove 1]).contains 0
      = false ∧
    (applyOps [Op.insert, Op.insert, Op.insert, Op.remove 0, Op.remove 1]).contains 1
      = false ∧
    ((applyOps [Op.insert, Op.insert, Op.insert, Op.remove 0, Op.remove 1]).insert
      UserData.mk).1 = 1 := by
  decide

/-- C2 amended: `insert` always succeeds and returns the head of the free
list: the slot most recently freed by `remove` when one exists (LIFO reuse),
and otherwise — when no slot is vacant — the fresh index `entries.length`,
growing the collection by one slot.  In particular, after inserting one
record (id 0) and removing it, the next insert returns id 0 again. -/
theorem C2_insert_allocation (s : Slab UserData) (id : Nat)
    (h : WF s) (hc : s.contains id = true) :
    (s.insert UserData.mk).2.contains (s.insert UserData.mk).1 = true ∧
    ((∀ i, ¬ isVacantIdx s.entries i) →
      ((s.insert UserData.mk).1 = s.entries.length ∧
        (s.insert UserData.mk).2.entries.length = s.entries.length + 1)) ∧
    ((s.remove id).insert UserData.mk).1 = id ∧
    ((applyOps [Op.insert, Op.remove 0]).insert UserData.mk).1 = 0 := by
  obtain ⟨w, hk⟩ := (contains_iff s id).mp hc
  refine ⟨?_, ?_, ?_, by decide⟩
  · obtain ⟨_, _, hkey, hocc⟩ := wf_insert s UserData.mk h
    rw [contains_iff]
    exact (hocc _).mpr (Or.inr hkey)
  · intro hnovac
    obtain ⟨chain, hfc, _, hiff⟩ := h
    have hchain : chain = [] := by
      rw [List.eq_nil_iff_forall_not_mem]
      intro j hj
      exact hnovac j (freeChain_mem hfc j hj)
    subst hchain
    rcases freeChain_cases hfc with ⟨hnext, _⟩ | ⟨n, rest, hget, _, hcons⟩
    · have hins : s.insert UserData.mk =
          (s.next, ⟨s.entries ++ [Entry.occupied UserData.mk], s.next + 1, s.len + 1⟩) := by
        simp [Slab.insert, hnext]
      rw [hins]
      exact ⟨hnext, by simp⟩
    · cases hcons
  · have hrem : s.remove id =
        ⟨s.entries.set id (Entry.vacant s.next), id, s.len - 1⟩ := by
      unfold Slab.remove
      rw [hk]
    rw [insert_fst, hrem]

theorem C2_insert_allocation_witness :
    (((applyOps [Op.insert]).remove 0).insert UserData.mk).1 = 0 :=
  (C2_insert_allocation (applyOps [Op.insert]) 0 (wf_applyOps [Op.insert])
    (by decide)).2.2.1

/-- C3 counterexample: the path `/user/abc` starts with the `/user/` prefix,
yet `USER_PATH` does not match it at all (the segment is not digits), so the
request is answered 404 — it is not dispatched through the UserById table
with an absent id (that would give 200 for POST, 405 for GET). -/
theorem C3_counterexample :
    stripPre userPre "/user/abc".data = some ['a', 'b', 'c'] ∧
    USER_PATH_captures "/user/abc".data = none ∧
    MicroService.call Slab.new Method.POST "/user/abc".data = (⟨404, ""⟩, Slab.new) ∧
    MicroService.call Slab.new Method.GET "/user/abc".data = (⟨404, ""⟩, Slab.new) := by
  decide

/-- C3 amended: on a path that `USER_PATH` matches with a digit segment that
fails to parse as u64 (overflow), the id is treated as absent: POST inserts
and returns 200 and GET is answered 405, exactly as for `/user/`.  A
non-numeric segment such as `/user/abc`, however, fails the pattern itself
and is answered 404. -/
theorem C3_user_id_leniency (s : Slab UserData) (p ds : List Char)
    (hcap : USER_PATH_captures p = some (some ds)) (hbad : parseU64 ds = none) :
    MicroService.call s Method.POST p =
      (⟨200, toString (s.insert UserData.mk).1⟩, (s.insert UserData.mk).2) ∧
    MicroService.call s Method.GET p = (⟨405, ""⟩, s) ∧
    MicroService.call Slab.new Method.POST "/user/abc".data = (⟨404, ""⟩, Slab.new) := by
  obtain ⟨hI, hU⟩ := user_captures_not_other p _ hcap
  refine ⟨?_, ?_, by decide⟩
  · simp [MicroService.call, hI, hU, hcap, hbad]
  · simp [MicroService.call, hI, hU, hcap, hbad]

theorem C3_user_id_leniency_witness :
    MicroService.call Slab.new Method.POST "/user/18446744073709551616".data =
      (⟨200, "0"⟩, (Slab.new.insert UserData.mk).2) ∧
    MicroService.call Slab.new Method.GET "/user/18446744073709551616".data =
      (⟨405, ""⟩, Slab.new) := by
  have h := C3_user_id_leniency Slab.new "/user/18446744073709551616".data
    "18446744073709551616".data (by decide) (by decide)
  refine ⟨?_, h.2.1⟩
  rw [h.1]
  decide

/-- C4: POST on a UserById path with the id segment absent inserts a new
empty record and returns 200 with the new id as decimal text; POST with an
id present performs no store operation and returns 400 with the store
unchanged. -/
theorem C4_post_dispatch (s : Slab UserData) (p q ds : List Char) (id : Nat)
    (hp : USER_PATH_captures p = some none)
    (hq : USER_PATH_captures q = some (some ds)) (hid : parseU64 ds = some id) :
    MicroService.call s Method.POST p =
      (⟨200, toString (s.insert UserData.mk).1⟩, (s.insert UserData.mk).2) ∧
    MicroService.call s Method.POST q = (⟨400, ""⟩, s) := by
  obtain ⟨hI, hU⟩ := user_captures_not_other p _ hp
  obtain ⟨hI', hU'⟩ := user_captures_not_other q _ hq
  constructor
  · simp [MicroService.call, hI, hU, hp]
  · simp [MicroService.call, hI', hU', hq, hid]

theorem C4_post_dispatch_witness :
    MicroService.call Slab.new Method.POST "/user/".data =
      (⟨200, "0"⟩, (Slab.new.insert UserData.mk).2) ∧
    MicroService.call Slab.new Method.POST "/user/5".data = (⟨400, ""⟩, Slab.new) := by
  have h := C4_post_dispatch Slab.new "/user/".data "/user/5".data ['5'] 5
    (by decide) (by decide) (by decide)
  refine ⟨?_, h.2⟩
  rw [h.1]
  decide

/-- C5: GET on a UserById path carrying id returns 200 with body `{}` (the
record's textual form) iff the slot is occupied, and 404 with empty body
otherwise; the store is unchanged either way. -/
theorem C5_get_user (s : Slab UserData) (p ds : List Char) (id : Nat)
    (hcap : USER_PATH_captures p = some (some ds)) (hid : parseU64 ds = some id) :
    (s.contains id = true →
      MicroService.call s Method.GET p = (⟨200, "\x7b\x7d"⟩, s)) ∧
    (s.contains id = false →
      MicroService.call s Method.GET p = (⟨404, ""⟩, s)) := by
  obtain ⟨hI, hU⟩ := user_captures_not_other p _ hcap
  constructor
  · intro hc
    have hc' : (s.get id).isSome = true := hc
    obtain ⟨v, hv⟩ := Option.isSome_iff_exists.mp hc'
    simp [MicroService.call, hI, hU, hcap, hid, hv, UserData.render]
  · intro hc
    have hg : s.get id = none := get_eq_none s id hc
    simp [MicroService.call, hI, hU, hcap, hid, hg]

theorem C5_get_user_witness :
    MicroService.call (applyOps [Op.insert]) Method.GET "/user/0".data =
      (⟨200, "\x7b\x7d"⟩, applyOps [Op.insert]) ∧
    MicroService.call Slab.new Method.GET "/user/0".data = (⟨404, ""⟩, Slab.new) :=
  ⟨(C5_get_user (applyOps [Op.insert]) "/user/0".data ['0'] 0 (by decide)
      (by decide)).1 (by decide),
   (C5_get_user Slab.new "/user/0".data ['0'] 0 (by decide) (by decide)).2 (by decide)⟩

/-- C6: PUT (update) and DELETE (remove) on an id whose slot is not occupied
answer 404 and return the store state itself — nothing about occupancy, the
free list or the records changes (`update` signals `none` without touching
the slab, and `remove` is never reached past its `contains` guard). -/
theorem C6_notfound_noop (s : Slab UserData) (p ds : List Char) (id : Nat)
    (hcap : USER_PATH_captures p = some (some ds)) (hid : parseU64 ds = some id)
    (hfree : s.contains id = false) :
    MicroService.call s Method.PUT p = (⟨404, ""⟩, s) ∧
    MicroService.call s Method.DELETE p = (⟨404, ""⟩, s) ∧
    s.update id UserData.mk = none := by
  obtain ⟨hI, hU⟩ := user_captures_not_other p _ hcap
  have hup := update_eq_none s id UserData.mk hfree
  refine ⟨?_, ?_, hup⟩
  · simp [MicroService.call, hI, hU, hcap, hid, hup]
  · simp [MicroService.call, hI, hU, hcap, hid, hfree]

theorem C6_notfound_noop_witness :
    MicroService.call Slab.new Method.PUT "/user/99".data = (⟨404, ""⟩, Slab.new) ∧
    MicroService.call Slab.new Method.DELETE "/user/99".data = (⟨404, ""⟩, Slab.new) := by
  have h := C6_notfound_noop Slab.new "/user/99".data ['9', '9'] 99
    (by decide) (by decide) (by decide)
  exact ⟨h.1, h.2.1⟩

/-- C7: GET on `/users` or `/users/` answers 200 with the occupied ids in
strictly ascending physical slot order, joined by single commas with no
trailing separator, and the empty string when no slot is occupied; any
non-GET method on those paths answers 405. -/
theorem C7_list_users (s : Slab UserData) (m : Method) (p : List Char)
    (hp : p = "/users".data ∨ p = "/users/".data) :
    (m = Method.GET →
      MicroService.call s m p =
        (⟨200, String.intercalate "," (s.list.map (fun id => toString id))⟩, s) ∧
      s.list.Pairwise (fun a b => a < b) ∧
      (∀ id, id ∈ s.list ↔ occupiedAt s id) ∧
      ((∀ id, s.contains id = false) →
        String.intercalate "," (s.list.map (fun id => toString id)) = "")) ∧
    (m ≠ Method.GET → MicroService.call s m p = (⟨405, ""⟩, s)) := by
  have hI : INDEX_PATH_match p = false := by
    rcases hp with rfl | rfl <;> decide
  have hU : USERS_PATH_match p = true := by
    rcases hp with rfl | rfl <;> decide
  constructor
  · rintro rfl
    refine ⟨?_, list_pairwise s, fun id => mem_list_iff s id, ?_⟩
    · simp [MicroService.call, hI, hU]
    · intro hall
      have hnil : s.list = [] := by
        rw [List.eq_nil_iff_forall_not_mem]
        intro x hx
        have hcx := (contains_iff s x).mpr ((mem_list_iff s x).mp hx)
        rw [hall x] at hcx
        cases hcx
      rw [hnil]
      rfl
  · intro hm
    cases m with
    | GET => exact absurd rfl hm
    | POST => simp [MicroService.call, hI, hU]
    | PUT => simp [MicroService.call, hI, hU]
    | DELETE => simp [MicroService.call, hI, hU]
    | other nm => simp [MicroService.call, hI, hU]

theorem C7_list_users_witness :
    MicroService.call (applyOps [Op.insert, Op.insert]) Method.GET "/users".data =
      (⟨200, "0,1"⟩, applyOps [Op.insert, Op.insert]) ∧
    MicroService.call Slab.new (Method.other "PATCH") "/users".data =
      (⟨405, ""⟩, Slab.new) := by
  have h := (C7_list_users (applyOps [Op.insert, Op.insert]) Method.GET "/users".data
    (Or.inl rfl)).1 rfl
  have h' := (C7_list_users Slab.new (Method.other "PATCH") "/users".data
    (Or.inl rfl)).2 (by simp)
  refine ⟨?_, h'⟩
  rw [h.1]
  decide

/-- C8 counterexample: the Index route also matches `/index.htm` (GET there
is served the index page, not 404), and does not match `/index` (GET there is
404) — so the matched set is not the claimed `/`, `/index.html`, optionally
`/index`. -/
theorem C8_counterexample :
    MicroService.call Slab.new Method.GET "/index.htm".data = (⟨200, INDEX⟩, Slab.new) ∧
    MicroService.call Slab.new Method.GET "/index".data = (⟨404, ""⟩, Slab.new) := by
  decide

/-- C8 amended: the Index intent matches exactly the three paths `/`,
`/index.htm` and `/index.html` (the regex makes the final `l` optional and
the `.htm` part mandatory whenever anything follows `/`); on those paths GET
returns 200 with the static informational HTML body and every other method
returns 405; `/index` matches no route and is answered 404 for every
method. -/
theorem C8_index_route (s : Slab UserData) (m : Method) (p : List Char)
    (hp : p = "/".data ∨ p = "/index.htm".data ∨ p = "/index.html".data) :
    (m = Method.GET → MicroService.call s m p = (⟨200, INDEX⟩, s)) ∧
    (m ≠ Method.GET → MicroService.call s m p = (⟨405, ""⟩, s)) ∧
    (∀ q, INDEX_PATH_match q = true ↔
      (q = "/".data ∨ q = "/index.htm".data ∨ q = "/index.html".data)) ∧
    MicroService.call s m "/index".data = (⟨404, ""⟩, s) := by
  have hI : INDEX_PATH_match p = true := by
    rcases hp with rfl | rfl | rfl <;> decide
  refine ⟨?_, ?_, ?_, ?_⟩
  · rintro rfl
    simp [MicroService.call, hI]
  · intro hm
    cases m with
    | GET => exact absurd rfl hm
    | POST => simp [MicroService.call, hI]
    | PUT => simp [MicroService.call, hI]
    | DELETE => simp [MicroService.call, hI]
    | other nm => simp [MicroService.call, hI]
  · intro q
    constructor
    · intro hq
      exact index_match_paths q hq
    · rintro (rfl | rfl | rfl) <;> decide
  · have h1 : INDEX_PATH_match "/index".data = false := by decide
    have h2 : USERS_PATH_match "/index".data = false := by decide
    have h3 : USER_PATH_captures "/index".data = none := by decide
    simp [MicroService.call, h1, h2, h3]

theorem C8_index_route_witness :
    MicroService.call Slab.new Method.GET "/index.html".data = (⟨200, INDEX⟩, Slab.new) :=
  (C8_index_route Slab.new Method.GET "/index.html".data (Or.inr (Or.inr rfl))).1 rfl

/-- C9: `insert` followed immediately by `get` of the returned id succeeds
and returns the freshly inserted record. -/
theorem C9_insert_get {α : Type} (s : Slab α) (v : α) (h : WF s) :
    (s.insert v).2.get (s.insert v).1 = some v := by
  obtain ⟨chain, hfc, hnd, hiff⟩ := h
  by_cases hk : s.next = s.entries.length
  · have hins : s.insert v =
        (s.next, ⟨s.entries ++ [Entry.occupied v], s.next + 1, s.len + 1⟩) := by
      simp [Slab.insert, hk]
    have hget : (s.entries ++ [Entry.occupied v])[s.next]? = some (Entry.occupied v) := by
      rw [hk]
      exact List.getElem?_concat_length _ _
    rw [hins]
    simp [Slab.get, hget]
  · rcases freeChain_cases hfc with ⟨he, _⟩ | ⟨n, rest, hget, _, _⟩
    · exact absurd he hk
    have hlt := freeChain_head_lt hget
    have hins : s.insert v =
        (s.next, ⟨s.entries.set s.next (Entry.occupied v), n, s.len + 1⟩) := by
      simp [Slab.insert, hk, hget]
    rw [hins]
    simp [Slab.get, List.getElem?_set_self hlt]

theorem C9_insert_get_witness :
    (Slab.new.insert UserData.mk).2.get (Slab.new.insert UserData.mk).1 =
      some UserData.mk :=
  C9_insert_get Slab.new UserData.mk wf_new

/-- C10: the regex `^/(index\.html?)?$` makes the final `l` optional, so GET
`/index.htm` is served the static index page with status 200, while `/index`
matches no route and GET there is answered 404. -/
theorem C10_index_htm (s : Slab UserData) :
    MicroService.call s Method.GET "/index.htm".data = (⟨200, INDEX⟩, s) ∧
    MicroService.call s Method.GET "/index".data = (⟨404, ""⟩, s) ∧
    INDEX_PATH_match "/index.htm".data = true ∧
    INDEX_PATH_match "/index".data = false := by
  have h1 : INDEX_PATH_match "/index.htm".data = true := by decide
  have h2 : INDEX_PATH_match "/index".data = false := by decide
  have h3 : USERS_PATH_match "/index".data = false := by decide
  have h4 : USER_PATH_captures "/index".data = none := by decide
  exact ⟨by simp [MicroService.call, h1],
    by simp [MicroService.call, h2, h3, h4], h1, h2⟩

end Micro
